import Mathlib

/-!
Verification of the two-phase assembler (HBurd/assembler).

The definitions below are a shallow embedding of `src/assembler.cpp`, the
whole-buffer one-pass implementation that the specification's design notes
declare canonical.  C character buffers become `List Char`; the pointer-walking
lexer becomes functions from a suffix of the buffer to a token and the
remaining suffix; 32-bit/16-bit machine arithmetic is modelled with `Nat`/`Int`
plus explicit `% 2^32` / `% 2^16`; `asm_assert`/`exit(1)` becomes the error
side of `Except`; the `assert` in `Array::push` (a capacity guard that aborts
the process) is the distinguished outcome `Fatal.assertFail`.
-/

namespace Assembler

/-- `2^32`, the modulus of C `uint32_t` arithmetic. -/
def U32 : Nat := 4294967296

/-- `2^16`, the modulus of C `uint16_t` arithmetic. -/
def U16 : Nat := 65536

/-- `ROM_SIZE` from the source: the bootloader ROM is 1024 bytes. -/
def ROM_SIZE : Nat := 1024

/-- `MAX_INSTR = ROM_SIZE / 2` from the source. -/
def MAX_INSTR : Nat := ROM_SIZE / 2

/-- `MAX_LABELS` from the source. -/
def MAX_LABELS : Nat := 512

/-- Reinterpret a `Nat` as a C `int32_t` (truncate to 32 bits, two's complement). -/
def toInt32 (n : Nat) : Int :=
  if n % U32 < 2147483648 then ((n % U32 : Nat) : Int) else ((n % U32 : Nat) : Int) - (U32 : Int)

/-- Convert an `Int` to its `uint32_t` bit pattern (value mod `2^32`,
`%` on `Int` being Euclidean remainder, always non-negative here). -/
def intToU32 (v : Int) : Nat := (v % (U32 : Int)).toNat

/-- The errors reported through `asm_assert` in the source, one constructor per
distinct message: "malformed constant", "argument needs too many bits",
"label not found", "not a valid register", "too many args", "duplicate label". -/
inductive AsmErr where
  | malformedConstant
  | tooManyBits
  | labelNotFound
  | invalidRegister
  | wrongArgCount
  | duplicateLabel
deriving DecidableEq, Repr

/-- A fatal outcome of a run: either a user-facing `asm_assert` error
(`exit(1)` with a message) or a C `assert` failure (process abort), as in
`Array::push`'s capacity guard or `parse_instruction`'s mnemonic precondition. -/
inductive Fatal where
  | asmError (e : AsmErr)
  | assertFail
deriving DecidableEq, Repr

/-- The human-readable message `asm_assert` prints for each error. -/
def err_msg : AsmErr → String
  | .malformedConstant => "malformed constant"
  | .tooManyBits => "argument needs too many bits"
  | .labelNotFound => "label not found"
  | .invalidRegister => "not a valid register"
  | .wrongArgCount => "too many args"
  | .duplicateLabel => "duplicate label"

/-- The global `line_num` of `assembler.cpp` (line 44).  It is initialised to 0
and never incremented anywhere in that file, so it is a constant. -/
def line_num : Nat := 0

/-- The error line `asm_assert` prints: `"Line " << line_num << ": " << err_msg`. -/
def error_report (msg : String) : String :=
  "Line " ++ toString line_num ++ ": " ++ msg

/-- The 8 instruction formats of the ISA (`enum class InstructionFormat`). -/
inductive InstructionFormat where
  | A0 | A1 | A2 | A3 | B1 | B2 | L1 | L2
deriving DecidableEq, Repr

/-- One entry of the static opcode table (`struct OpData`). -/
structure OpData where
  mnemonic : String
  opcode : Nat
  format : InstructionFormat
  upper : Bool
deriving DecidableEq, Repr

/-- The static opcode table `OP[]`, entry for entry. -/
def OP : List OpData := [
  ⟨"NOP", 0, .A0, false⟩,
  ⟨"ADD", 1, .A1, false⟩,
  ⟨"SUB", 2, .A1, false⟩,
  ⟨"MUL", 3, .A1, false⟩,
  ⟨"NAND", 4, .A1, false⟩,
  ⟨"SHL", 5, .A2, false⟩,
  ⟨"SHR", 6, .A2, false⟩,
  ⟨"TEST", 7, .A3, false⟩,
  ⟨"MUH", 8, .A1, false⟩,
  ⟨"OUT", 32, .A3, false⟩,
  ⟨"IN", 33, .A3, false⟩,
  ⟨"BRR", 64, .B1, false⟩,
  ⟨"BRR.N", 65, .B1, false⟩,
  ⟨"BRR.Z", 66, .B1, false⟩,
  ⟨"BRR.O", 73, .B1, false⟩,
  ⟨"BR", 67, .B2, false⟩,
  ⟨"BR.N", 68, .B2, false⟩,
  ⟨"BR.Z", 69, .B2, false⟩,
  ⟨"BR.O", 72, .B2, false⟩,
  ⟨"BR.SUB", 70, .B2, false⟩,
  ⟨"RETURN", 71, .A0, false⟩,
  ⟨"LOAD", 16, .L2, false⟩,
  ⟨"STORE", 17, .L2, false⟩,
  ⟨"LOADIMM.LOWER", 18, .L1, false⟩,
  ⟨"LOADIMM.UPPER", 18, .L1, true⟩,
  ⟨"MOV", 19, .L2, false⟩]

/-- A label: name (the token with its trailing `:` removed) and address. -/
structure Label where
  name : List Char
  addr : Nat
deriving DecidableEq, Repr

/-- A pending instruction from phase 1 (`struct Instr`): assigned address,
mnemonic token, raw operand tokens. -/
structure Instr where
  addr : Nat
  op : List Char
  args : List (List Char)
deriving DecidableEq, Repr

/-- `toupper` on an ASCII character, as applied by `to_upper`. -/
def to_upper_char (c : Char) : Char :=
  if 'a' ≤ c && c ≤ 'z' then Char.ofNat (c.toNat - 32) else c

/-- `to_upper`: the whole source buffer is case-folded in place before lexing. -/
def to_upper (s : List Char) : List Char := s.map to_upper_char

/-- A word-constituent character for the lexer: `.`, `:`, `A`–`Z`, `0`–`9`
(the buffer is uppercased first). -/
def is_word_char (c : Char) : Bool :=
  c = '.' || c = ':' || ('A' ≤ c && c ≤ 'Z') || ('0' ≤ c && c ≤ '9')

/-- `skip_blank` (assembler.cpp): advance to the next character that can start
a word; a newline also stops the scan (it is itself a one-character word). -/
def skip_blank : List Char → List Char
  | [] => []
  | c :: rest => if is_word_char c || c = '\n' then c :: rest else skip_blank rest

/-- `get_word` combined with `skip_word`: skip blanks, then either consume a
lone newline token or a maximal run of word characters.  Returns the token and
the remaining buffer. -/
def get_word (s : List Char) : List Char × List Char :=
  let s1 := skip_blank s
  match s1 with
  | '\n' :: rest => (['\n'], rest)
  | _ => (s1.takeWhile is_word_char, s1.dropWhile is_word_char)

/-- `lookup_op`: linear search of the opcode table for an exact match between
the token and the (NUL-terminated) mnemonic. -/
def lookup_op (word : List Char) : Option OpData :=
  OP.find? (fun o => word == o.mnemonic.toList)

/-- `is_label`: nonempty token whose last character is `:`. -/
def is_label (word : List Char) : Bool :=
  match word with
  | [] => false
  | _ => word.getLastD (Char.ofNat 0) = ':'

/-- `is_comment`: nonempty token whose first character is `;`. -/
def is_comment (word : List Char) : Bool :=
  match word with
  | [] => false
  | c :: _ => c = ';'

/-- Is `c` a valid digit of the given base, exactly as checked by the
validation loop in `parse_num` (base is always 10, 16 or 2 there)?  The C
comparisons `'0' <= c && c <= '9'` etc. are comparisons of code points
(`'0'` = 48, `'9'` = 57, `'A'` = 65, `'F'` = 70, `'1'` = 49). -/
def digit_ok (base : Nat) (c : Char) : Bool :=
  if base = 10 then 48 ≤ c.toNat && c.toNat ≤ 57
  else if base = 16 then (48 ≤ c.toNat && c.toNat ≤ 57) || (65 ≤ c.toNat && c.toNat ≤ 70)
  else c.toNat = 48 || c.toNat = 49

/-- Numeric value of a digit character (`0`–`9`, `A`–`F`). -/
def digit_val (c : Char) : Nat :=
  if 65 ≤ c.toNat then c.toNat - 55 else c.toNat - 48

/-- Accumulating value of a digit string in the given base. -/
def digits_val_aux (base : Nat) (acc : Nat) : List Char → Nat
  | [] => acc
  | c :: r => digits_val_aux base (acc * base + digit_val c) r

/-- Model of C `strtoul` as invoked by `parse_num`: optional sign, optional
`0X` prefix in base 16, then the longest prefix of valid digits; the magnitude
clamps at `ULONG_MAX` (64-bit) on overflow and a minus sign negates in
unsigned-long arithmetic. -/
def strtoul (s : List Char) (base : Nat) : Nat :=
  let c0 := s.headD (Char.ofNat 0)
  let neg := c0 = '-'
  let s1 := if c0 = '-' || c0 = '+' then s.tail else s
  let s2 :=
    if base = 16 && s1.headD (Char.ofNat 0) = '0' && s1.getD 1 (Char.ofNat 0) = 'X' then
      s1.drop 2
    else s1
  let m := digits_val_aux base 0 (s2.takeWhile (digit_ok base))
  if 18446744073709551615 < m then 18446744073709551615
  else if neg then (18446744073709551616 - m) % 18446744073709551616
  else m

/-- `0xffffffff << bits` in `uint32_t` arithmetic: the mask of bits `≥ bits`. -/
def range_mask (bits : Nat) : Nat := (4294967295 * 2 ^ bits) % U32

/-- `~(0xffffffff << bits)` in `uint32_t` arithmetic (bitwise complement of a
32-bit value `m` equals `0xffffffff - m`). -/
def mask_low (bits : Nat) : Nat := (U32 - 1) - range_mask bits

/-- The range test of `parse_num`/`parse_constant` on the `uint32_t` bit
pattern `u` of the result: the bits above `bits` must be all 0 or all 1. -/
def range_check (u : Nat) (bits : Nat) : Bool :=
  (u &&& range_mask bits == 0) || (u &&& range_mask bits == range_mask bits)

/-- The shared tail of `parse_num` and of the label branch of
`parse_constant`: range-check the `int32_t` value `v` against `bits`
(`asm_assert(... , "argument needs too many bits")`) and mask it to the low
`bits` bits. -/
def range_and_mask (v : Int) (bits : Nat) : Except AsmErr Nat :=
  let u := intToU32 v
  if range_check u bits then .ok (u &&& mask_low bits) else .error .tooManyBits

/-- The sign-stripping step of `parse_num`: record whether the first character
is `-` and drop a leading `+`/`-`.  (`num_str[0]` of an empty token reads the
NUL terminator.) -/
def sign_split (s : List Char) : Bool × List Char :=
  (s.headD (Char.ofNat 0) = '-',
   if s.headD (Char.ofNat 0) = '+' || s.headD (Char.ofNat 0) = '-' then s.tail else s)

/-- The base-detection block of `parse_num`: a second character `X`/`B`
selects hex/binary and demands a leading `0` (`asm_assert(num_str[0] == '0',
"malformed constant")` — fatal regardless of the success pointer); otherwise
base 10. -/
def base_split (s1 : List Char) : Except AsmErr (Nat × List Char) :=
  if 2 ≤ s1.length then
    if s1.getD 1 (Char.ofNat 0) = 'X' then
      if s1.headD (Char.ofNat 0) = '0' then .ok (16, s1.drop 2)
      else .error .malformedConstant
    else if s1.getD 1 (Char.ofNat 0) = 'B' then
      if s1.headD (Char.ofNat 0) = '0' then .ok (2, s1.drop 2)
      else .error .malformedConstant
    else .ok (10, s1)
  else .ok (10, s1)

/-- `parse_num(num_str, bits, success)`.  `has_success` is true when the C
caller passes a non-null `success` pointer.  Returns the `valid_number` flag
and the masked result; the malformed-prefix check and the range check call
`asm_assert` unconditionally, hence are error outcomes even when
`has_success` is true, exactly as in the source. -/
def parse_num (num_str : List Char) (bits : Nat) (has_success : Bool) :
    Except AsmErr (Bool × Nat) :=
  let sg := sign_split num_str
  match base_split sg.2 with
  | .error e => .error e
  | .ok (base, s2) =>
    let valid := s2.all (digit_ok base)
    if has_success = false && valid = false then .error .malformedConstant
    else
      let r0 : Int := toInt32 (strtoul s2 base)
      let r1 : Int := if sg.1 then toInt32 (intToU32 (-r0)) else r0
      match range_and_mask r1 bits with
      | .error e => .error e
      | .ok m => .ok (valid, m)

/-- The label-search loop of `parse_constant`: for every table entry whose
name equals the token, compute the displacement
`((int32_t)labels[i].addr - (int32_t)addr) / 2` (C division truncates toward
zero), range-check it to `bits` bits and mask it, carrying the
`label_found`/`result` state through the loop. -/
def label_scan (const_str : List Char) (addr : Nat) (bits : Nat) :
    List Label → Bool × Nat → Except AsmErr (Bool × Nat)
  | [], st => .ok st
  | l :: rest, st =>
    if l.name = const_str then
      match range_and_mask (Int.tdiv (toInt32 l.addr - toInt32 addr) 2) bits with
      | .error e => .error e
      | .ok m => label_scan const_str addr bits rest (true, m)
    else label_scan const_str addr bits rest st

/-- `parse_constant`: try `parse_num` with a success pointer; when the token is
not a valid number, fall back to the label table; `asm_assert(label_found,
"label not found")` at the end. -/
def parse_constant (const_str : List Char) (addr : Nat) (labels : List Label)
    (bits : Nat) : Except AsmErr Nat :=
  match parse_num const_str bits true with
  | .error e => .error e
  | .ok (valid, result) =>
    if valid then .ok result
    else
      match label_scan const_str addr bits labels (false, result) with
      | .error e => .error e
      | .ok (found, result2) =>
        if found then .ok result2 else .error .labelNotFound

/-- `parse_reg`: `asm_assert(len == 2 && str[0] == 'R')`, then return
`str[1] - '0'` as a `uint32_t` (the second character is not validated). -/
def parse_reg (reg_str : List Char) : Except AsmErr Nat :=
  if reg_str.length = 2 && reg_str.headD (Char.ofNat 0) = 'R' then
    .ok (intToU32 (((reg_str.getD 1 (Char.ofNat 0)).toNat : Int) - 48))
  else .error .invalidRegister

/-- `instr |= x`: OR a `uint32_t` operand field into the `uint16_t`
instruction word (the assignment truncates to 16 bits). -/
def or16 (instr x : Nat) : Nat := (instr ||| x) % U16

/-- A `uint32_t` left shift `x << k`. -/
def shl32 (x k : Nat) : Nat := (x * 2 ^ k) % U32

/-- `parse_instruction`: look up the mnemonic (the C `assert` on failure is the
caller's precondition, modelled as `Fatal.assertFail`), place `opcode << 9`,
then dispatch on the format: check the operand count
(`asm_assert(args.size == n, "too many args")`) and OR in each operand field
in source order. -/
def parse_instruction (op_str : List Char) (args : List (List Char))
    (labels : List Label) (addr : Nat) : Except Fatal Nat :=
  match lookup_op op_str with
  | none => .error .assertFail
  | some op =>
    let instr := (op.opcode * 2 ^ 9) % U16
    match op.format with
    | .A0 =>
      if args.length = 0 then .ok instr else .error (.asmError .wrongArgCount)
    | .A1 =>
      if args.length = 3 then
        match parse_reg (args.getD 0 []) with
        | .error e => .error (.asmError e)
        | .ok r0 =>
          match parse_reg (args.getD 1 []) with
          | .error e => .error (.asmError e)
          | .ok r1 =>
            match parse_reg (args.getD 2 []) with
            | .error e => .error (.asmError e)
            | .ok r2 => .ok (or16 (or16 (or16 instr (shl32 r0 6)) (shl32 r1 3)) r2)
      else .error (.asmError .wrongArgCount)
    | .A2 =>
      if args.length = 2 then
        match parse_reg (args.getD 0 []) with
        | .error e => .error (.asmError e)
        | .ok r0 =>
          match parse_num (args.getD 1 []) 4 false with
          | .error e => .error (.asmError e)
          | .ok n => .ok (or16 (or16 instr (shl32 r0 6)) n.2)
      else .error (.asmError .wrongArgCount)
    | .A3 =>
      if args.length = 1 then
        match parse_reg (args.getD 0 []) with
        | .error e => .error (.asmError e)
        | .ok r0 => .ok (or16 instr (shl32 r0 6))
      else .error (.asmError .wrongArgCount)
    | .B1 =>
      if args.length = 1 then
        match parse_constant (args.getD 0 []) addr labels 9 with
        | .error e => .error (.asmError e)
        | .ok c => .ok (or16 instr c)
      else .error (.asmError .wrongArgCount)
    | .B2 =>
      if args.length = 2 then
        match parse_reg (args.getD 0 []) with
        | .error e => .error (.asmError e)
        | .ok r0 =>
          match parse_num (args.getD 1 []) 6 false with
          | .error e => .error (.asmError e)
          | .ok n => .ok (or16 (or16 instr (shl32 r0 6)) n.2)
      else .error (.asmError .wrongArgCount)
    | .L1 =>
      if args.length = 1 then
        let instr2 := if op.upper then or16 instr 256 else instr
        match parse_num (args.getD 0 []) 8 false with
        | .error e => .error (.asmError e)
        | .ok n => .ok (or16 instr2 n.2)
      else .error (.asmError .wrongArgCount)
    | .L2 =>
      if args.length = 2 then
        match parse_reg (args.getD 0 []) with
        | .error e => .error (.asmError e)
        | .ok r0 =>
          match parse_reg (args.getD 1 []) with
          | .error e => .error (.asmError e)
          | .ok r1 => .ok (or16 (or16 instr (shl32 r0 6)) (shl32 r1 3))
      else .error (.asmError .wrongArgCount)

/-- The operand-collection loop of phase 1: starting after the mnemonic,
repeatedly `get_word`; a comment token or a newline token stops the loop
(consumed); every other token — including an empty token at end of input — is
pushed onto the 3-slot operand array, whose capacity guard is a C `assert`.
`fuel` bounds the recursion; `none` means the fuel ran out. -/
def collect_args (fuel : Nat) (pos : List Char) (args : List (List Char)) :
    Option (Except Fatal (List (List Char) × List Char)) :=
  match fuel with
  | 0 => none
  | fuel + 1 =>
    let w := get_word pos
    if is_comment w.1 || w.1 = ['\n'] then some (.ok (args, w.2))
    else if args.length < 3 then collect_args fuel w.2 (args ++ [w.1])
    else some (.error .assertFail)

/-- Phase 1 of `main` (assembler.cpp): walk the token stream, maintaining the
`in_comment` flag and the address cursor `next_addr`; handle in order the
comment-newline rule, comment tokens, `ORG`, label definitions (duplicate
check, 512-entry capacity guard), recognized mnemonics (operand collection,
512-entry capacity guard, cursor advance by 2) and silently ignore everything
else.  `fuel` bounds the recursion; `none` means the fuel ran out. -/
def phase1 (fuel : Nat) (pos : List Char) (in_comment : Bool) (next_addr : Nat)
    (labels : List Label) (instrs : List Instr) :
    Option (Except Fatal (List Label × List Instr)) :=
  match pos with
  | [] => some (.ok (labels, instrs))
  | _ =>
    match fuel with
    | 0 => none
    | fuel + 1 =>
      let w := get_word pos
      if in_comment && w.1 = ['\n'] then
        phase1 fuel w.2 false next_addr labels instrs
      else if is_comment w.1 then
        phase1 fuel w.2 true next_addr labels instrs
      else if w.1 = ("ORG".toList) then
        let w2 := get_word w.2
        match parse_num w2.1 16 false with
        | .error e => some (.error (.asmError e))
        | .ok v => phase1 fuel w2.2 in_comment v.2 labels instrs
      else if is_label w.1 then
        let name := w.1.dropLast
        if labels.any (fun l => l.name == name) then
          some (.error (.asmError .duplicateLabel))
        else if labels.length < MAX_LABELS then
          phase1 fuel w.2 in_comment next_addr (labels ++ [⟨name, next_addr⟩]) instrs
        else some (.error .assertFail)
      else
        match lookup_op w.1 with
        | some _ =>
          match collect_args (w.2.length + 8) w.2 [] with
          | none => none
          | some (.error f) => some (.error f)
          | some (.ok (args, rest2)) =>
            if instrs.length < MAX_INSTR then
              phase1 fuel rest2 in_comment (next_addr + 2) labels
                (instrs ++ [⟨next_addr, w.1, args⟩])
            else some (.error .assertFail)
        | none => phase1 fuel w.2 in_comment next_addr labels instrs

/-- Phase 2 of `main`: encode every pending instruction in order and record
the two byte writes `rom_data[addr] = instr >> 8 & 0xFF`,
`rom_data[addr+1] = instr & 0xFF` as an explicit (address, byte) trace. -/
def phase2 (labels : List Label) : List Instr → List (Nat × Nat) →
    Except Fatal (List (Nat × Nat))
  | [], ws => .ok ws
  | i :: rest, ws =>
    match parse_instruction i.op i.args labels i.addr with
    | .error f => .error f
    | .ok w =>
      phase2 labels rest (ws ++ [(i.addr, (w >>> 8) &&& 255), (i.addr + 1, w &&& 255)])

/-- Pointwise update of the ROM byte image. -/
def upd (rom : Nat → Nat) (a v : Nat) : Nat → Nat :=
  fun x => if x = a then v else rom x

/-- Replay a byte-write trace over a ROM image. -/
def apply_writes (ws : List (Nat × Nat)) (rom : Nat → Nat) : Nat → Nat :=
  ws.foldl (fun r p => upd r p.1 p.2) rom

/-- The whole assembler on a source buffer: uppercase, phase 1, phase 2.
The result is the byte-write trace of the successful run. -/
def assemble (input : List Char) : Option (Except Fatal (List (Nat × Nat))) :=
  let src := to_upper input
  match phase1 (src.length + 8) src false 0 [] [] with
  | none => none
  | some (.error f) => some (.error f)
  | some (.ok (labels, instrs)) => some (phase2 labels instrs [])

/-- Phase 1 alone on a source string (uppercased first), with enough fuel. -/
def run_phase1 (s : String) : Option (Except Fatal (List Label × List Instr)) :=
  phase1 (s.toList.length + 8) (to_upper s.toList) false 0 [] []

/-- One hexadecimal digit, uppercase, as printed by `%02X`. -/
def hex_digit (n : Nat) : Char :=
  if n < 10 then Char.ofNat (48 + n) else Char.ofNat (55 + n)

/-- `%02X` applied to a byte value: two uppercase hexadecimal digits. -/
def hex_byte (b : Nat) : List Char := [hex_digit (b / 16), hex_digit (b % 16)]

/-- The output loop of `main`: `ROM_SIZE / 2` lines, each
`"%02X%02X\n"` of the two bytes of one word, high byte first. -/
def emit_lines (rom : Nat → Nat) : List (List Char) :=
  (List.range (ROM_SIZE / 2)).map
    (fun k => hex_byte (rom (2 * k)) ++ hex_byte (rom (2 * k + 1)) ++ ['\n'])

/-- An uppercase hexadecimal digit character. -/
def is_hex_upper (c : Char) : Bool :=
  ('0' ≤ c && c ≤ '9') || ('A' ≤ c && c ≤ 'F')

/-- Spec-side meaning of a numeric literal (used only to state the round-trip
claim): optional sign, `0X`/`0B`/decimal base prefix, all remaining characters
valid digits, value is the signed magnitude — with no width restriction. -/
def num_lit_value (s : List Char) : Option Int :=
  let sg := sign_split s
  match base_split sg.2 with
  | .error _ => none
  | .ok (base, s2) =>
    if s2.all (digit_ok base) then
      some (if sg.1 then -(digits_val_aux base 0 s2 : Int)
            else (digits_val_aux base 0 s2 : Int))
    else none

/-- Decode a `w`-bit field as a signed two's-complement value (sign-extend
from bit `w - 1`). -/
def sign_extend (w : Nat) (m : Nat) : Int :=
  if m < 2 ^ (w - 1) then (m : Int) else (m : Int) - 2 ^ w

/-! ### Bit-level helper lemmas -/

theorem land_shift_mask (x k b : Nat) :
    x &&& ((2 ^ k - 1) <<< b) = ((x >>> b) % 2 ^ k) <<< b := by
  apply Nat.eq_of_testBit_eq
  intro i
  simp only [Nat.testBit_land, Nat.testBit_shiftLeft, Nat.testBit_mod_two_pow,
    Nat.testBit_shiftRight, Nat.testBit_two_pow_sub_one, ge_iff_le]
  by_cases hbi : b ≤ i
  · by_cases hik : i - b < k
    · simp [hbi, hik, Nat.add_sub_cancel' hbi]
    · simp [hbi, hik]
  · simp [hbi]

theorem land_mod_two_pow (x k : Nat) : x &&& (2 ^ k - 1) = x % 2 ^ k := by
  have h := land_shift_mask x k 0
  simp only [Nat.shiftLeft_zero, Nat.shiftRight_zero] at h
  exact h

theorem land_or_distrib (a b c : Nat) : (a ||| b) &&& c = (a &&& c) ||| (b &&& c) := by
  apply Nat.eq_of_testBit_eq
  intro i
  simp only [Nat.testBit_land, Nat.testBit_or]
  cases a.testBit i <;> cases b.testBit i <;> cases c.testBit i <;> rfl

theorem two_pow_le_u32 (bits : Nat) (h : bits ≤ 32) : 2 ^ bits ≤ 4294967296 := by
  calc 2 ^ bits ≤ 2 ^ 32 := Nat.pow_le_pow_right (by norm_num) h
  _ = 4294967296 := by norm_num

theorem range_mask_eq (bits : Nat) (h : bits ≤ 32) : range_mask bits = U32 - 2 ^ bits := by
  have h1 : 2 ^ bits ≤ 4294967296 := two_pow_le_u32 bits h
  have h3 : 1 ≤ 2 ^ bits := Nat.one_le_two_pow
  have h2 : 4294967295 * 2 ^ bits =
      4294967296 * (2 ^ bits - 1) + (4294967296 - 2 ^ bits) := by omega
  rw [range_mask, U32, h2, Nat.mul_add_mod]
  rw [Nat.mod_eq_of_lt (by omega)]

theorem range_mask_shift (bits : Nat) (h : bits ≤ 32) :
    range_mask bits = (2 ^ (32 - bits) - 1) <<< bits := by
  rw [range_mask_eq bits h, Nat.shiftLeft_eq]
  have hp : 2 ^ (32 - bits) * 2 ^ bits = 4294967296 := by
    rw [← pow_add]
    have : 32 - bits + bits = 32 := by omega
    rw [this]
    norm_num
  have h3 : 1 ≤ 2 ^ bits := Nat.one_le_two_pow
  rw [Nat.sub_mul, one_mul, hp, U32]

theorem mask_low_eq (bits : Nat) (h : bits ≤ 32) : mask_low bits = 2 ^ bits - 1 := by
  have h1 : 2 ^ bits ≤ 4294967296 := two_pow_le_u32 bits h
  have h3 : 1 ≤ 2 ^ bits := Nat.one_le_two_pow
  rw [mask_low, range_mask_eq bits h, U32]
  omega

theorem land_range_mask (u bits : Nat) (hb : bits ≤ 32) :
    u &&& range_mask bits = u / 2 ^ bits % 2 ^ (32 - bits) * 2 ^ bits := by
  rw [range_mask_shift bits hb, land_shift_mask, Nat.shiftLeft_eq,
    Nat.shiftRight_eq_div_pow]

theorem range_check_iff (u bits : Nat) (hu : u < U32) (hb : bits ≤ 32) :
    range_check u bits = true ↔ (u < 2 ^ bits ∨ U32 - 2 ^ bits ≤ u) := by
  have hbp : 0 < 2 ^ bits := Nat.pos_pow_of_pos bits (by norm_num)
  have hup : 0 < 2 ^ (32 - bits) := Nat.pos_pow_of_pos _ (by norm_num)
  have hp : 2 ^ (32 - bits) * 2 ^ bits = 4294967296 := by
    rw [← pow_add]
    have : 32 - bits + bits = 32 := by omega
    rw [this]
    norm_num
  have hq : u / 2 ^ bits < 2 ^ (32 - bits) := by
    apply Nat.div_lt_of_lt_mul
    calc u < U32 := hu
    _ = 2 ^ bits * 2 ^ (32 - bits) := by rw [U32, ← hp, Nat.mul_comm]
  have hqm : u / 2 ^ bits % 2 ^ (32 - bits) = u / 2 ^ bits := Nat.mod_eq_of_lt hq
  have hland : u &&& range_mask bits = u / 2 ^ bits * 2 ^ bits := by
    rw [land_range_mask u bits hb, hqm]
  have hmask : range_mask bits = (2 ^ (32 - bits) - 1) * 2 ^ bits := by
    rw [range_mask_shift bits hb, Nat.shiftLeft_eq]
  constructor
  · intro h
    have h' : u &&& range_mask bits = 0 ∨ u &&& range_mask bits = range_mask bits := by
      simpa [range_check] using h
    rcases h' with h0 | h1
    · left
      have : u / 2 ^ bits * 2 ^ bits = 0 := by rw [← hland]; exact h0
      have hz : u / 2 ^ bits = 0 := by
        rcases Nat.mul_eq_zero.mp this with hz | hz
        · exact hz
        · omega
      exact (Nat.div_eq_zero_iff hbp).mp hz
    · right
      have heq : u / 2 ^ bits * 2 ^ bits = (2 ^ (32 - bits) - 1) * 2 ^ bits := by
        rw [← hland, ← hmask]; exact h1
      have hdq : u / 2 ^ bits = 2 ^ (32 - bits) - 1 :=
        Nat.eq_of_mul_eq_mul_right hbp heq
      have hle : (2 ^ (32 - bits) - 1) * 2 ^ bits ≤ u := by
        rw [← hdq]; exact Nat.div_mul_le_self u (2 ^ bits)
      have : U32 - 2 ^ bits = (2 ^ (32 - bits) - 1) * 2 ^ bits := by
        rw [Nat.sub_mul, one_mul, hp, U32]
      omega
  · intro h
    rcases h with h0 | h1
    · have : u / 2 ^ bits = 0 := Nat.div_eq_of_lt h0
      have : u &&& range_mask bits = 0 := by rw [hland, this, Nat.zero_mul]
      simp [range_check, this]
    · have hms : U32 - 2 ^ bits = (2 ^ (32 - bits) - 1) * 2 ^ bits := by
        rw [Nat.sub_mul, one_mul, hp, U32]
      have hdge : 2 ^ (32 - bits) - 1 ≤ u / 2 ^ bits := by
        apply Nat.le_div_iff_mul_le hbp |>.mpr
        omega
      have hdq : u / 2 ^ bits = 2 ^ (32 - bits) - 1 := by omega
      have : u &&& range_mask bits = range_mask bits := by
        rw [hland, hdq, hmask]
      simp [range_check, this]

/-! ### The range check on `int32_t` values -/

theorem toInt32_of_lt (n : Nat) (h : n < 2147483648) : toInt32 n = (n : Int) := by
  rw [toInt32, U32]
  rw [Nat.mod_eq_of_lt (by omega)]
  simp [h]

theorem intToU32_toNat (v : Int) (hv1 : -4294967296 ≤ v) (hv2 : v < 4294967296) :
    (intToU32 v : Int) = if 0 ≤ v then v else v + 4294967296 := by
  have hu : intToU32 v = (v % 4294967296).toNat := by
    rw [intToU32, U32]
    norm_num
  rw [hu]
  rcases le_or_lt 0 v with h | h
  · rw [if_pos h]
    omega
  · rw [if_neg (by omega)]
    omega

theorem range_check_int_iff (v : Int) (bits : Nat)
    (hv1 : -2147483648 ≤ v) (hv2 : v < 2147483648) (hb : bits ≤ 31) :
    range_check (intToU32 v) bits = true ↔ (-(2 ^ bits : Int) ≤ v ∧ v ≤ 2 ^ bits - 1) := by
  have hple : (2 : Nat) ^ bits ≤ 2147483648 := by
    calc (2 : Nat) ^ bits ≤ 2 ^ 31 := Nat.pow_le_pow_right (by norm_num) hb
    _ = 2147483648 := by norm_num
  have hu32 : intToU32 v < U32 := by
    have := intToU32_toNat v (by omega) (by omega)
    rw [U32]; omega
  have hiff := range_check_iff (intToU32 v) bits hu32 (by omega)
  have hcast : ((2 ^ bits : Nat) : Int) = (2 : Int) ^ bits := by push_cast; ring
  have hval := intToU32_toNat v (by omega) (by omega)
  rw [hiff]
  rcases le_or_lt 0 v with hpos | hneg
  · rw [if_pos hpos] at hval
    constructor
    · intro h
      rcases h with h0 | h1
      · constructor
        · have : (0 : Int) ≤ 2 ^ bits := by positivity
          omega
        · have : (intToU32 v : Int) < ((2 ^ bits : Nat) : Int) := by exact_mod_cast h0
          omega
      · exfalso
        have : ((U32 - 2 ^ bits : Nat) : Int) ≤ (intToU32 v : Int) := by exact_mod_cast h1
        have hsub : ((U32 - 2 ^ bits : Nat) : Int) = 4294967296 - (2 ^ bits : Nat) := by
          have : (2 : Nat) ^ bits ≤ U32 := by rw [U32]; omega
          rw [U32] at this ⊢
          omega
        omega
    · intro ⟨hl, hr⟩
      left
      have : (intToU32 v : Int) < ((2 ^ bits : Nat) : Int) := by
        push_cast
        omega
      exact_mod_cast this
  · rw [if_neg (by omega)] at hval
    constructor
    · intro h
      rcases h with h0 | h1
      · exfalso
        have : (intToU32 v : Int) < ((2 ^ bits : Nat) : Int) := by exact_mod_cast h0
        omega
      · have : ((U32 - 2 ^ bits : Nat) : Int) ≤ (intToU32 v : Int) := by exact_mod_cast h1
        have hsub : ((U32 - 2 ^ bits : Nat) : Int) = 4294967296 - (2 ^ bits : Nat) := by
          have : (2 : Nat) ^ bits ≤ U32 := by rw [U32]; omega
          rw [U32] at this ⊢
          omega
        constructor
        · omega
        · omega
    · intro ⟨hl, hr⟩
      right
      have hsub : ((U32 - 2 ^ bits : Nat) : Int) = 4294967296 - (2 ^ bits : Nat) := by
        have : (2 : Nat) ^ bits ≤ U32 := by rw [U32]; omega
        rw [U32] at this ⊢
        omega
      have : ((U32 - 2 ^ bits : Nat) : Int) ≤ (intToU32 v : Int) := by omega
      exact_mod_cast this

theorem intToU32_mask (v : Int) (bits : Nat)
    (_hv1 : -2147483648 ≤ v) (_hv2 : v < 2147483648) (hb : bits ≤ 31) :
    intToU32 v &&& mask_low bits = (v % ((2 : Int) ^ bits)).toNat := by
  rw [mask_low_eq bits (by omega), land_mod_two_pow]
  have hu : intToU32 v = (v % 4294967296).toNat := by
    rw [intToU32, U32]
    norm_num
  have hdvd : ((2 : Int) ^ bits) ∣ 4294967296 := by
    have h32 : (4294967296 : Int) = 2 ^ 32 := by norm_num
    rw [h32]
    exact pow_dvd_pow 2 (by omega)
  have hmm : (v % 4294967296) % ((2 : Int) ^ bits) = v % ((2 : Int) ^ bits) :=
    Int.emod_emod_of_dvd v hdvd
  have h1 : (0 : Int) ≤ v % 4294967296 := Int.emod_nonneg v (by norm_num)
  have h3 : ((intToU32 v % 2 ^ bits : Nat) : Int) = v % ((2 : Int) ^ bits) := by
    rw [hu]
    push_cast
    rw [Int.toNat_of_nonneg h1]
    exact hmm
  omega

theorem range_and_mask_eq (v : Int) (bits : Nat)
    (hv1 : -2147483648 ≤ v) (hv2 : v < 2147483648) (hb : bits ≤ 31) :
    range_and_mask v bits =
      if -(2 ^ bits : Int) ≤ v ∧ v ≤ 2 ^ bits - 1 then .ok ((v % ((2 : Int) ^ bits)).toNat)
      else .error .tooManyBits := by
  rw [range_and_mask]
  by_cases h : -(2 ^ bits : Int) ≤ v ∧ v ≤ 2 ^ bits - 1
  · rw [if_pos h]
    rw [if_pos ((range_check_int_iff v bits hv1 hv2 hb).mpr h)]
    rw [intToU32_mask v bits hv1 hv2 hb]
  · rw [if_neg h]
    have : ¬ range_check (intToU32 v) bits = true := by
      rw [range_check_int_iff v bits hv1 hv2 hb]
      exact h
    simp only [this, if_false]
    simp at this ⊢


/-! ### Claim C1: comment handling in the one-pass driver -/

/-- Claim C1 (refuted; the code mis-handles comments): on the pure comment
line `"; ADD R1 R2 R3"` the one-pass driver of `assembler.cpp` does produce
tokens from the comment body — `skip_blank` skips the `;` itself (it is not a
word character), so no token ever starts with `;`, `is_comment` never fires,
and the word `ADD` inside the comment is classified as a mnemonic: phase 1
yields a pending `ADD` instruction with operands `R1 R2 R3` taken from the
comment text, instead of yielding no instruction at all. -/
theorem C1_comment_text_is_classified :
    run_phase1 "; ADD R1 R2 R3\n" =
      some (.ok ([], [⟨0, ['A', 'D', 'D'], [['R', '1'], ['R', '2'], ['R', '3']]⟩])) := rfl

/-! ### Claim C2: numeric pre-parse of B1 operands -/

/-- Claim C2 (refuted; the numeric pre-parse can be fatal by itself): in the
program `"ABC:\nBRR ABC\n"` the B1 operand `ABC` names a defined label, yet
assembly terminates with `malformedConstant` ("malformed constant"): inside
`parse_num` the base-prefix check `asm_assert(num_str[0] == '0')` fires on the
second character `B` even though the caller passed a success pointer, so the
label lookup (and any `UnknownLabel` reporting) is never reached. -/
theorem C2_numeric_preparse_is_fatal :
    assemble ("ABC:\nBRR ABC\n".toList) = some (.error (.asmError .malformedConstant)) ∧
    AsmErr.malformedConstant ≠ AsmErr.labelNotFound := ⟨rfl, by decide⟩

/-! ### Claim C6: address invariant under ORG -/

/-- Claim C6 (refuted; addresses are unchecked): the program
`"ORG 0X401\nNOP\n"` is accepted by both phases — `ORG` parses its operand at
16 bits with no evenness or bounds check — and the `NOP` is assigned write
target 1025, which is odd and has `1025 + 1 ≥ ROM_SIZE`, i.e. the two byte
writes land at 1025 and 1026, outside the 1024-byte `rom_data` array. -/
theorem C6_org_address_unchecked :
    assemble ("ORG 0X401\nNOP\n".toList) = some (.ok [(1025, 0), (1026, 0)]) ∧
    ¬ (1025 % 2 = 0 ∧ 1025 + 1 < ROM_SIZE) := ⟨rfl, by decide⟩

/-! ### Claim C9: error reporting and line numbers -/

/-- Claim C9 (refuted for the line number; the global `line_num` of
`assembler.cpp` is initialised to 0 and never incremented): the program
`"NOP R1\n"` fails on source line 1 with the operand-count error, and
`asm_assert` reports it as `"Line 0: too many args"` — 0, not the 1-based
line number 1 of the offending line. -/
theorem C9_error_line_is_always_zero :
    assemble ("NOP R1\n".toList) = some (.error (.asmError .wrongArgCount)) ∧
    error_report (err_msg .wrongArgCount) = "Line 0: too many args" ∧
    error_report (err_msg .wrongArgCount) ≠ "Line 1: too many args" :=
  ⟨rfl, rfl, by decide⟩

/-! ### Claim C4: the range check of parse_num -/

/-- Claim C4 counterexample: the claim says a literal of value exactly
`2^(w-1)` is rejected with the range error; for the ISA width `w = 4`
(shift amounts) the literal `8 = 2^3` is in fact accepted by `parse_num`
and encoded as 8. -/
theorem C4_counterexample : parse_num ['8'] 4 false = .ok (true, 8) := rfl

/-- Claim C4 (amended): for every ISA bit width `w` (4, 6, 8, 9 and the
16 bits used by `ORG`), `parse_num` accepts the decimal literal of value
`2^w - 1` and rejects the one of value `2^w` with the range error
("argument needs too many bits"); in general a 32-bit signed value `v`
passes the range check iff all bits at positions `≥ w` of its bit pattern
are uniform, i.e. iff `-2^w ≤ v ≤ 2^w - 1` — not iff it fits the signed
`w`-bit range the claim states. -/
theorem C4_range_boundaries :
    ∀ w ∈ ([4, 6, 8, 9, 16] : List Nat),
      parse_num (Nat.toDigits 10 (2 ^ w - 1)) w false = .ok (true, 2 ^ w - 1) ∧
      parse_num (Nat.toDigits 10 (2 ^ w)) w false = .error .tooManyBits ∧
      (∀ v : Int, -2147483648 ≤ v → v < 2147483648 →
        (range_check (intToU32 v) w = true ↔ (-(2 ^ w : Int) ≤ v ∧ v ≤ 2 ^ w - 1))) := by
  intro w hw
  fin_cases hw <;>
    exact ⟨rfl, rfl, fun v h1 h2 => range_check_int_iff v _ h1 h2 (by norm_num)⟩

/-- Witness for C4: instantiation at width 4; the boundary literal 15 is
accepted, and the check refuses 16 (the right-hand side of the iff fails). -/
theorem C4_range_boundaries_witness :
    parse_num (Nat.toDigits 10 15) 4 false = .ok (true, 15) ∧
    (range_check (intToU32 16) 4 = true ↔ (-(2 ^ 4 : Int) ≤ 16 ∧ (16 : Int) ≤ 2 ^ 4 - 1)) := by
  constructor
  · exact (C4_range_boundaries 4 (by decide)).1
  · exact (C4_range_boundaries 4 (by decide)).2.2 16 (by norm_num) (by norm_num)

/-! ### Claim C5: register operand validation -/

/-- Claim C5 counterexample: the claim says a register token with a non-digit
second character is a fatal `InvalidRegister` error; in fact `TEST RA`
encodes successfully — `parse_reg` returns `'A' - '0' = 17` and the word
becomes `7 << 9 | 17 << 6 = 3648`. -/
theorem C5_counterexample :
    parse_instruction ['T', 'E', 'S', 'T'] [['R', 'A']] [] 0 = .ok 3648 := rfl

/-- Claim C5 (amended): `parse_reg` validates only the token length and the
first character: a two-character token starting with `R` always succeeds,
with register number the code point of the second character minus `'0'`
(in `uint32_t` arithmetic — the second character is never checked to be a
digit); every token whose length is not 2 fails with `InvalidRegister`
("not a valid register"). -/
theorem C5_parse_reg_amended :
    (∀ a b : Char, parse_reg [a, b] =
      if a = 'R' then .ok (intToU32 ((b.toNat : Int) - 48))
      else .error .invalidRegister) ∧
    (∀ s : List Char, s.length ≠ 2 → parse_reg s = .error .invalidRegister) := by
  constructor
  · intro a b
    by_cases h : a = 'R'
    · simp [parse_reg, h]
    · simp [parse_reg, h]
  · intro s h
    simp [parse_reg, h]

/-- Witness for C5 (amended): `RA` succeeds with register number 17, `R.`
succeeds with the wrapped value `2^32 - 2`, and the one-character token `R`
fails. -/
theorem C5_parse_reg_amended_witness :
    parse_reg ['R', 'A'] = .ok 17 ∧
    parse_reg ['R', '.'] = .ok 4294967294 ∧
    parse_reg ['R'] = .error .invalidRegister := by
  refine ⟨?_, ?_, ?_⟩
  · rw [C5_parse_reg_amended.1 'R' 'A', if_pos rfl]
    rfl
  · rw [C5_parse_reg_amended.1 'R' '.', if_pos rfl]
    rfl
  · exact C5_parse_reg_amended.2 ['R'] (by decide)

/-! ### Claim C10: the 3-slot operand array -/

theorem collect_args_le (fuel : Nat) :
    ∀ pos args res rest, collect_args fuel pos args = some (.ok (res, rest)) →
      args.length ≤ 3 → res.length ≤ 3 := by
  induction fuel with
  | zero =>
    intro pos args res rest h _
    simp [collect_args] at h
  | succ n ih =>
    intro pos args res rest h hlen
    simp only [collect_args] at h
    split at h
    · simp only [Option.some.injEq, Except.ok.injEq, Prod.mk.injEq] at h
      obtain ⟨h1, h2⟩ := h
      subst h1
      exact hlen
    · split at h
      · exact ih _ _ _ _ h (by simp; omega)
      · simp at h

theorem phase1_args_le (fuel : Nat) :
    ∀ pos b addr labels instrs out,
      phase1 fuel pos b addr labels instrs = some (.ok out) →
      (∀ i ∈ instrs, i.args.length ≤ 3) →
      ∀ i ∈ out.2, i.args.length ≤ 3 := by
  induction fuel with
  | zero =>
    intro pos b addr labels instrs out h hinv
    cases pos with
    | nil =>
      simp only [phase1, Option.some.injEq, Except.ok.injEq] at h
      subst h
      exact hinv
    | cons c cs => simp [phase1] at h
  | succ n ih =>
    intro pos b addr labels instrs out h hinv
    cases pos with
    | nil =>
      simp only [phase1, Option.some.injEq, Except.ok.injEq] at h
      subst h
      exact hinv
    | cons c cs =>
      simp only [phase1] at h
      split at h
      · exact ih _ _ _ _ _ _ h hinv
      · split at h
        · exact ih _ _ _ _ _ _ h hinv
        · split at h
          · split at h
            · simp at h
            · exact ih _ _ _ _ _ _ h hinv
          · split at h
            · split at h
              · simp at h
              · split at h
                · exact ih _ _ _ _ _ _ h hinv
                · simp at h
            · split at h
              · split at h
                · simp at h
                · simp at h
                · split at h
                  · refine ih _ _ _ _ _ _ h ?_
                    intro i hi
                    rcases List.mem_append.mp hi with hmem | hmem
                    · exact hinv i hmem
                    · have harg := collect_args_le _ _ _ _ _ (by assumption) (by simp)
                      simp at hmem
                      subst hmem
                      exact harg
                  · simp at h
              · exact ih _ _ _ _ _ _ h hinv

/-- Claim C10: every pending instruction the driver ever constructs carries at
most 3 operand tokens (the capacity of the operand array), and on the input
`"NOP A B C D\n"` — a recognized mnemonic followed by four operand tokens
before the newline — the capacity-guard `assert` in `Array::push` fires and
the process aborts (`Fatal.assertFail`), which is not an
`OperandCountMismatch` ("too many args") report. -/
theorem C10_operand_capacity :
    (∀ fuel pos b addr labels instrs out,
        phase1 fuel pos b addr labels instrs = some (.ok out) →
        (∀ i ∈ instrs, i.args.length ≤ 3) →
        ∀ i ∈ out.2, i.args.length ≤ 3) ∧
    assemble ("NOP A B C D\n".toList) = some (.error .assertFail) ∧
    Fatal.assertFail ≠ Fatal.asmError .wrongArgCount := by
  exact ⟨fun fuel => phase1_args_le fuel, rfl, by decide⟩

/-- Witness for C10: the invariant applied to the concrete accepted run of
`"NOP R1\n"`, whose single pending instruction holds one operand. -/
theorem C10_operand_capacity_witness :
    (Instr.mk 0 ['N', 'O', 'P'] [['R', '1']]).args.length ≤ 3 :=
  C10_operand_capacity.1 9 ("NOP R1\n".toList) false 0 [] []
    ([], [Instr.mk 0 ['N', 'O', 'P'] [['R', '1']]]) rfl (by simp)
    (Instr.mk 0 ['N', 'O', 'P'] [['R', '1']]) (by simp)

/-! ### Claim C3: B1 branch displacement encoding -/

theorem tdiv_two_le (x : Int) (h : 0 ≤ x) : Int.tdiv x 2 ≤ x ∧ 0 ≤ Int.tdiv x 2 := by
  obtain ⟨n, rfl⟩ := Int.eq_ofNat_of_zero_le h
  rw [show ((2 : Int)) = ((2 : Nat) : Int) by norm_num, ← Int.ofNat_tdiv]
  constructor
  · exact_mod_cast Nat.div_le_self n 2
  · exact_mod_cast Nat.zero_le (n / 2)

theorem tdiv_two_bounds (x : Int) (hx1 : -2147483648 < x) (hx2 : x < 2147483648) :
    -2147483648 < Int.tdiv x 2 ∧ Int.tdiv x 2 < 2147483648 := by
  rcases le_or_lt 0 x with h | h
  · have := tdiv_two_le x h
    omega
  · have hswap : Int.tdiv x 2 = -(Int.tdiv (-x) 2) := by
      have hn := Int.neg_tdiv (-x) 2
      simp only [neg_neg] at hn
      omega
    have := tdiv_two_le (-x) (by omega)
    omega

theorem label_scan_no_match (s : List Char) (a bits : Nat) :
    ∀ (ls : List Label), (∀ l ∈ ls, l.name ≠ s) → ∀ st,
      label_scan s a bits ls st = .ok st := by
  intro ls
  induction ls with
  | nil => intro _ st; rfl
  | cons l rest ih =>
    intro h st
    simp only [label_scan]
    rw [if_neg (h l (List.mem_cons_self l rest))]
    exact ih (fun l' hl' => h l' (List.mem_cons_of_mem l hl')) st

theorem label_scan_single (s : List Char) (a bits T : Nat) :
    ∀ (ls : List Label) (st : Bool × Nat),
      ls.filter (fun l => l.name == s) = [⟨s, T⟩] →
      label_scan s a bits ls st =
        match range_and_mask (Int.tdiv (toInt32 T - toInt32 a) 2) bits with
        | .error e => .error e
        | .ok mv => .ok (true, mv) := by
  intro ls
  induction ls with
  | nil => intro st h; simp at h
  | cons l rest ih =>
    intro st h
    by_cases hl : l.name = s
    · rw [List.filter_cons, if_pos (by simp [hl])] at h
      have hinj := List.cons_eq_cons.mp h
      obtain ⟨hl2, hrest⟩ := hinj
      subst hl2
      have hnone : ∀ l' ∈ rest, l'.name ≠ s := by
        intro l' hl' hcon
        have : (fun l : Label => l.name == s) l' = true := by simp [hcon]
        have := List.filter_eq_nil_iff.mp hrest l' hl'
        simp_all
      simp only [label_scan, if_pos hl]
      cases hr : range_and_mask (Int.tdiv (toInt32 T - toInt32 a) 2) bits with
      | error e => simp [hr]
      | ok mv =>
        simp only [hr]
        exact label_scan_no_match s a bits rest hnone (true, mv)
    · rw [List.filter_cons, if_neg (by simp [hl])] at h
      simp only [label_scan, if_neg hl]
      exact ih st h

theorem or16_low9 (instr c : Nat) (hi : instr < U16) (hm : instr % 512 = 0) (hc : c < 512) :
    or16 instr c % 512 = c := by
  have h16 : (U16 : Nat) = 2 ^ 16 := by rw [U16]; norm_num
  have hcc : c < 2 ^ 16 := by norm_num at h16 ⊢; omega
  have hor : instr ||| c < U16 := by
    rw [h16]
    exact Nat.or_lt_two_pow (by rw [h16] at hi; exact hi) hcc
  rw [or16, Nat.mod_eq_of_lt hor]
  have h512 : (512 : Nat) = 2 ^ 9 := by norm_num
  rw [h512, ← land_mod_two_pow, land_or_distrib, land_mod_two_pow, land_mod_two_pow]
  rw [← h512, hm, Nat.mod_eq_of_lt hc]
  exact Nat.zero_or c

/-- Claim C3: for every B1-format branch instruction at address `A` whose
operand token resolves through the label table to a label at address `T`
(the token is not a valid number, its pre-parse is non-fatal, and exactly one
table entry carries its name — forward or backward reference alike), with
`d = (T - A) / 2` computed in truncating C division: when `-512 ≤ d ≤ 511`
the encoder succeeds and the low 9 bits of the encoded word are the 9-bit
two's-complement pattern `d mod 512` (negative displacements included), and
when `d` is outside that signed/unsigned 9-bit range the encoder terminates
with the range error instead of truncating. -/
theorem C3_branch_displacement (m s : List Char) (op : OpData)
    (hlook : lookup_op m = some op) (hfmt : op.format = .B1)
    (r0 : Nat) (hnum : parse_num s 9 true = .ok (false, r0))
    (T A : Nat) (hT : T < 2147483648) (hA : A < 2147483648)
    (labels : List Label)
    (hlab : labels.filter (fun l => l.name == s) = [⟨s, T⟩]) :
    (-512 ≤ Int.tdiv ((T : Int) - (A : Int)) 2 ∧ Int.tdiv ((T : Int) - (A : Int)) 2 ≤ 511 →
      parse_instruction m [s] labels A =
        .ok (or16 ((op.opcode * 2 ^ 9) % U16)
              ((Int.tdiv ((T : Int) - (A : Int)) 2 % (512 : Int)).toNat)) ∧
      or16 ((op.opcode * 2 ^ 9) % U16)
          ((Int.tdiv ((T : Int) - (A : Int)) 2 % (512 : Int)).toNat) % 512 =
        (Int.tdiv ((T : Int) - (A : Int)) 2 % (512 : Int)).toNat) ∧
    (Int.tdiv ((T : Int) - (A : Int)) 2 < -512 ∨ 511 < Int.tdiv ((T : Int) - (A : Int)) 2 →
      parse_instruction m [s] labels A = .error (.asmError .tooManyBits)) := by
  have hdb := tdiv_two_bounds ((T : Int) - (A : Int)) (by omega) (by omega)
  have hscan := label_scan_single s A 9 T labels (false, r0) hlab
  rw [toInt32_of_lt T hT, toInt32_of_lt A hA] at hscan
  have hpc : parse_constant s A labels 9 =
      match range_and_mask (Int.tdiv ((T : Int) - (A : Int)) 2) 9 with
      | .error e => .error e
      | .ok mv => .ok mv := by
    rw [parse_constant, hnum]
    simp only [Bool.false_eq_true, if_false]
    rw [hscan]
    cases range_and_mask (Int.tdiv ((T : Int) - (A : Int)) 2) 9 with
    | error e => rfl
    | ok mv => rfl
  have hram := range_and_mask_eq (Int.tdiv ((T : Int) - (A : Int)) 2) 9
    (by omega) (by omega) (by omega)
  have hpow : ((2 : Int) ^ 9) = 512 := by norm_num
  constructor
  · intro hin
    have hr : range_and_mask (Int.tdiv ((T : Int) - (A : Int)) 2) 9 =
        .ok ((Int.tdiv ((T : Int) - (A : Int)) 2 % (512 : Int)).toNat) := by
      rw [hram, if_pos (by constructor <;> [norm_num; skip] <;> omega)]
      rw [hpow]
    have henc : parse_instruction m [s] labels A =
        .ok (or16 ((op.opcode * 2 ^ 9) % U16)
              ((Int.tdiv ((T : Int) - (A : Int)) 2 % (512 : Int)).toNat)) := by
      rw [parse_instruction, hlook]
      simp only [hfmt]
      simp [hpc, hr]
    refine ⟨henc, ?_⟩
    apply or16_low9
    · exact Nat.mod_lt _ (by rw [U16]; norm_num)
    · rw [Nat.mod_mod_of_dvd _ (by rw [U16]; norm_num)]
      have : (2 : Nat) ^ 9 = 512 := by norm_num
      rw [this, Nat.mul_mod_left]
    · omega
  · intro hout
    have hr : range_and_mask (Int.tdiv ((T : Int) - (A : Int)) 2) 9 =
        .error .tooManyBits := by
      rw [hram, if_neg (by rw [hpow]; omega)]
    rw [parse_instruction, hlook]
    simp only [hfmt]
    simp [hpc, hr]

/-- Witness for C3: `BRR LOOP` issued from address 10 against the label
`LOOP` at address 4 (a backward branch, displacement `(4 - 10)/2 = -3`)
encodes to `64 << 9 | 509 = 33277`, i.e. low 9 bits `509 = -3 mod 512`. -/
theorem C3_branch_displacement_witness :
    parse_instruction ['B', 'R', 'R'] [['L', 'O', 'O', 'P']]
      [⟨['L', 'O', 'O', 'P'], 4⟩] 10 = .ok 33277 := by
  have h := (C3_branch_displacement ['B', 'R', 'R'] ['L', 'O', 'O', 'P']
    ⟨"BRR", 64, .B1, false⟩ rfl rfl 0 rfl 4 10 (by norm_num) (by norm_num)
    [⟨['L', 'O', 'O', 'P'], 4⟩] rfl).1 (by constructor <;> decide)
  rw [h.1]
  rfl

/-! ### Claim C7: parse_num round-trips in-range literals -/

theorem takeWhile_all_eq {α : Type} (p : α → Bool) :
    ∀ s : List α, s.all p = true → s.takeWhile p = s := by
  intro s
  induction s with
  | nil => intro _; rfl
  | cons c r ih =>
    intro h
    simp only [List.all_cons, Bool.and_eq_true] at h
    rw [List.takeWhile_cons, if_pos h.1, ih h.2]

theorem digit_ok_bounds (base : Nat) (c : Char)
    (hb : base = 10 ∨ base = 16 ∨ base = 2) (h : digit_ok base c = true) :
    48 ≤ c.toNat ∧ c.toNat ≤ 70 := by
  rcases hb with rfl | rfl | rfl <;> simp [digit_ok] at h <;> omega

theorem base_split_base (s1 : List Char) (base : Nat) (s2 : List Char)
    (h : base_split s1 = .ok (base, s2)) : base = 10 ∨ base = 16 ∨ base = 2 := by
  rw [base_split] at h
  split_ifs at h <;> simp_all

theorem strtoul_all_digits (s : List Char) (base : Nat)
    (hb : base = 10 ∨ base = 16 ∨ base = 2)
    (h : s.all (digit_ok base) = true)
    (hm : digits_val_aux base 0 s ≤ 18446744073709551615) :
    strtoul s base = digits_val_aux base 0 s := by
  have hA : ¬ (s.headD (Char.ofNat 0) = '-') := by
    cases s with
    | nil => decide
    | cons c r =>
      have hc := digit_ok_bounds base c hb
        (by simp only [List.all_cons, Bool.and_eq_true] at h; exact h.1)
      simp only [List.headD_cons]
      intro he
      rw [he] at hc
      simp at hc
  have hB : ¬ (s.headD (Char.ofNat 0) = '+') := by
    cases s with
    | nil => decide
    | cons c r =>
      have hc := digit_ok_bounds base c hb
        (by simp only [List.all_cons, Bool.and_eq_true] at h; exact h.1)
      simp only [List.headD_cons]
      intro he
      rw [he] at hc
      simp at hc
  have hX : ¬ (s.getD 1 (Char.ofNat 0) = 'X') := by
    cases s with
    | nil => decide
    | cons c r =>
      cases r with
      | nil =>
        simp only [List.getD_cons_succ]
        decide
      | cons d r2 =>
        have hd := digit_ok_bounds base d hb
          (by simp only [List.all_cons, Bool.and_eq_true] at h; exact h.2.1)
        simp only [List.getD_cons_succ, List.getD_cons_zero]
        intro he
        rw [he] at hd
        simp at hd
  simp only [strtoul]
  rw [if_neg (show ¬ ((decide (s.headD (Char.ofNat 0) = '-') ||
      decide (s.headD (Char.ofNat 0) = '+')) = true) by
    simp only [Bool.or_eq_true, decide_eq_true_eq, not_or]
    exact ⟨hA, hB⟩)]
  rw [if_neg (show ¬ ((decide (base = 16) && decide (s.headD (Char.ofNat 0) = '0') &&
      decide (s.getD 1 (Char.ofNat 0) = 'X')) = true) by
    simp only [Bool.and_eq_true, decide_eq_true_eq]
    rintro ⟨-, hcon⟩
    exact hX hcon)]
  rw [takeWhile_all_eq _ s h]
  rw [if_neg (show ¬ (18446744073709551615 < digits_val_aux base 0 s) by omega)]
  rw [if_neg hA]

theorem toInt32_large (n : Nat) (h1 : 2147483648 ≤ n) (h2 : n < 4294967296) :
    toInt32 n = (n : Int) - 4294967296 := by
  rw [toInt32, U32]
  rw [Nat.mod_eq_of_lt (by omega)]
  rw [if_neg (by omega)]
  norm_num

/-- Claim C7: for every valid decimal/hex/binary literal whose value `v` fits
the signed `w`-bit range `[-2^(w-1), 2^(w-1) - 1]`, `parse_num` succeeds with
the `w`-bit masked pattern `v mod 2^w` as its result, and sign-extending that
pattern from bit `w - 1` reproduces the original value `v`. -/
theorem C7_roundtrip (s : List Char) (v : Int) (w : Nat) (b : Bool)
    (hval : num_lit_value s = some v) (hw1 : 0 < w) (hw2 : w ≤ 31)
    (hlo : -(2 ^ (w - 1) : Int) ≤ v) (hhi : v ≤ 2 ^ (w - 1) - 1) :
    parse_num s w b = .ok (true, (v % ((2 : Int) ^ w)).toNat) ∧
    sign_extend w ((v % ((2 : Int) ^ w)).toNat) = v := by
  have hP : (0 : Int) < 2 ^ (w - 1) := by positivity
  have hQ : ((2 : Int) ^ w) = 2 ^ (w - 1) * 2 := by
    conv_lhs => rw [show w = (w - 1) + 1 by omega]
    rw [pow_succ]
  have hPle : ((2 : Int) ^ (w - 1)) ≤ 1073741824 := by
    calc ((2 : Int) ^ (w - 1)) ≤ 2 ^ 30 := by
          apply pow_le_pow_right₀ (by norm_num) (by omega)
    _ = 1073741824 := by norm_num
  cases hsg : sign_split s with
  | mk neg s1 =>
    simp only [num_lit_value, hsg] at hval
    cases hbs : base_split s1 with
    | error e =>
      rw [hbs] at hval
      simp at hval
    | ok p =>
      obtain ⟨base, s2⟩ := p
      rw [hbs] at hval
      simp only [] at hval
      have hbase := base_split_base s1 base s2 hbs
      by_cases hall : s2.all (digit_ok base) = true
      · rw [if_pos hall] at hval
        simp only [Option.some.injEq] at hval
        have hv : v = if neg = true then -(digits_val_aux base 0 s2 : Int)
            else (digits_val_aux base 0 s2 : Int) := hval.symm
        have hmle : ((digits_val_aux base 0 s2 : Nat) : Int) ≤ 2 ^ (w - 1) := by
          cases neg with
          | false => simp at hv; omega
          | true => simp at hv; omega
        have hmN : digits_val_aux base 0 s2 ≤ 1073741824 := by
          have : ((digits_val_aux base 0 s2 : Nat) : Int) ≤ 1073741824 :=
            le_trans hmle hPle
          exact_mod_cast this
        have hstr : strtoul s2 base = digits_val_aux base 0 s2 :=
          strtoul_all_digits s2 base hbase hall (by omega)
        have ht32 : toInt32 (digits_val_aux base 0 s2) =
            ((digits_val_aux base 0 s2 : Nat) : Int) :=
          toInt32_of_lt _ (by omega)
        have hr1 : (if neg = true
              then toInt32 (intToU32 (-(toInt32 (strtoul s2 base))))
              else toInt32 (strtoul s2 base)) = v := by
          rw [hstr, ht32]
          cases neg with
          | false =>
            simp only [Bool.false_eq_true, if_false]
            simp at hv
            omega
          | true =>
            simp only [if_pos rfl]
            by_cases hm0 : digits_val_aux base 0 s2 = 0
            · rw [hm0]
              simp only [Nat.cast_zero, neg_zero]
              have hz1 : intToU32 0 = 0 := by
                rw [intToU32]
                norm_num
              rw [hz1]
              have hz2 : toInt32 0 = 0 := by
                rw [toInt32, U32]
                norm_num
              rw [hz2]
              simp at hv
              omega
            · have hcastm := intToU32_toNat (-(digits_val_aux base 0 s2 : Int))
                (by omega) (by omega)
              rw [if_neg (by omega)] at hcastm
              have hn : intToU32 (-(digits_val_aux base 0 s2 : Int)) =
                  4294967296 - digits_val_aux base 0 s2 := by omega
              rw [hn, toInt32_large _ (by omega) (by omega)]
              simp at hv
              push_cast
              omega
        have hvlo : -2147483648 ≤ v := by omega
        have hvhi : v < 2147483648 := by omega
        have hram := range_and_mask_eq v w hvlo hvhi (by omega)
        have hrm : range_and_mask v w = .ok ((v % ((2 : Int) ^ w)).toNat) := by
          rw [hram, if_pos (by constructor <;> omega)]
        constructor
        · simp only [parse_num, hsg, hbs]
          rw [if_neg (by simp [hall])]
          rw [hr1, hrm, hall]
        · have hnn : (0 : Int) ≤ v % ((2 : Int) ^ w) :=
            Int.emod_nonneg v (by positivity)
          have hlt : v % ((2 : Int) ^ w) < (2 : Int) ^ w :=
            Int.emod_lt_of_pos v (by positivity)
          have hcastP : ((2 ^ (w - 1) : Nat) : Int) = (2 : Int) ^ (w - 1) := by
            push_cast
            ring
          rcases le_or_lt 0 v with hvpos | hvneg
          · have hE : v % ((2 : Int) ^ w) = v := Int.emod_eq_of_lt hvpos (by omega)
            rw [hE, sign_extend]
            have htn : ((v.toNat : Nat) : Int) = v := Int.toNat_of_nonneg hvpos
            rw [if_pos (by omega)]
            omega
          · have h1 : (v + (2 : Int) ^ w) % (2 : Int) ^ w = v % (2 : Int) ^ w := by
              simp
            have h2 : (v + (2 : Int) ^ w) % (2 : Int) ^ w = v + (2 : Int) ^ w :=
              Int.emod_eq_of_lt (by omega) (by omega)
            have hE : v % ((2 : Int) ^ w) = v + (2 : Int) ^ w := by omega
            rw [hE, sign_extend]
            have htn : (((v + (2 : Int) ^ w).toNat : Nat) : Int) = v + (2 : Int) ^ w :=
              Int.toNat_of_nonneg (by omega)
            rw [if_neg (by omega)]
            omega
      · rw [if_neg hall] at hval
        simp at hval

/-- Witness for C7: the hex literal `0X1A` (value 26) at width 8 parses to
the masked pattern 26 and sign-extends back to 26. -/
theorem C7_roundtrip_witness :
    parse_num ['0', 'X', '1', 'A'] 8 false = .ok (true, ((26 : Int) % ((2 : Int) ^ 8)).toNat) ∧
    sign_extend 8 (((26 : Int) % ((2 : Int) ^ 8)).toNat) = 26 :=
  C7_roundtrip ['0', 'X', '1', 'A'] 26 8 false rfl (by norm_num) (by norm_num)
    (by norm_num) (by norm_num)

/-! ### Claim C8: ROM image emission -/

theorem phase2_writes (labels : List Label) :
    ∀ (instrs : List Instr) (ws0 ws : List (Nat × Nat)),
      phase2 labels instrs ws0 = .ok ws →
      ∃ tail, ws = ws0 ++ tail ∧
        ∀ p ∈ tail, p.2 < 256 ∧ ∃ i ∈ instrs, p.1 = i.addr ∨ p.1 = i.addr + 1 := by
  intro instrs
  induction instrs with
  | nil =>
    intro ws0 ws h
    simp only [phase2, Except.ok.injEq] at h
    subst h
    exact ⟨[], by simp, by simp⟩
  | cons i rest ih =>
    intro ws0 ws h
    simp only [phase2] at h
    split at h
    · simp at h
    · obtain ⟨tail, htail, hprop⟩ := ih _ _ h
      subst htail
      rename_i w heq
      refine ⟨[(i.addr, (w >>> 8) &&& 255), (i.addr + 1, w &&& 255)] ++ tail,
        by simp, ?_⟩
      intro p hp
      rcases List.mem_append.mp hp with hm | hm
      · simp only [List.mem_cons, List.mem_singleton, List.not_mem_nil, or_false] at hm
        rcases hm with rfl | rfl
        · exact ⟨by have := Nat.and_le_right (n := w >>> 8) (m := 255); omega,
            i, List.mem_cons_self i rest, Or.inl rfl⟩
        · exact ⟨by have := Nat.and_le_right (n := w) (m := 255); omega,
            i, List.mem_cons_self i rest, Or.inr rfl⟩
      · obtain ⟨hb, i', hi', hor⟩ := hprop p hm
        exact ⟨hb, i', List.mem_cons_of_mem i hi', hor⟩

theorem apply_writes_lt (ws : List (Nat × Nat)) :
    ∀ rom : Nat → Nat, (∀ x, rom x < 256) → (∀ p ∈ ws, p.2 < 256) →
      ∀ x, apply_writes ws rom x < 256 := by
  induction ws with
  | nil => intro rom h0 _ x; exact h0 x
  | cons p rest ih =>
    intro rom h0 hw x
    have hstep : apply_writes (p :: rest) rom = apply_writes rest (upd rom p.1 p.2) := rfl
    rw [hstep]
    apply ih
    · intro y
      rw [upd]
      split
      · exact hw p (List.mem_cons_self p rest)
      · exact h0 y
    · intro q hq
      exact hw q (List.mem_cons_of_mem p hq)

theorem apply_writes_not_mem (ws : List (Nat × Nat)) :
    ∀ (rom : Nat → Nat) (x : Nat), (∀ p ∈ ws, p.1 ≠ x) →
      apply_writes ws rom x = rom x := by
  induction ws with
  | nil => intro rom x _; rfl
  | cons p rest ih =>
    intro rom x h
    have hstep : apply_writes (p :: rest) rom = apply_writes rest (upd rom p.1 p.2) := rfl
    rw [hstep, ih _ x (fun q hq => h q (List.mem_cons_of_mem p hq))]
    rw [upd, if_neg (fun hc => h p (List.mem_cons_self p rest) hc.symm)]

theorem emit_lines_getD (rom : Nat → Nat) (k : Nat) (hk : k < ROM_SIZE / 2) :
    (emit_lines rom).getD k [] =
      hex_byte (rom (2 * k)) ++ hex_byte (rom (2 * k + 1)) ++ ['\n'] := by
  have hk' : k < (emit_lines rom).length := by
    simp [emit_lines]
    exact hk
  rw [List.getD_eq_getElem _ _ hk']
  simp only [emit_lines, List.getElem_map, List.getElem_range]

theorem hex_digit_is_hex : ∀ m : Nat, m < 16 → is_hex_upper (hex_digit m) = true := by
  decide

/-- Claim C8: the output of every successful (in-bounds) run is exactly
`ROM_SIZE / 2 = 512` lines; line `k` renders the 16-bit word of ROM slot `k`
high byte first as `%02X%02X` — four uppercase hexadecimal characters
terminated by a newline — and every slot no instruction wrote is emitted as
`0000` (the NOP encoding, since the ROM image starts zeroed). -/
theorem C8_output_format (labels : List Label) (instrs : List Instr)
    (ws : List (Nat × Nat)) (h : phase2 labels instrs [] = .ok ws)
    (_hbound : ∀ i ∈ instrs, i.addr + 1 < ROM_SIZE) :
    (emit_lines (apply_writes ws (fun _ => 0))).length = ROM_SIZE / 2 ∧
    (∀ k, k < ROM_SIZE / 2 →
      ((emit_lines (apply_writes ws (fun _ => 0))).getD k [] =
          hex_byte (apply_writes ws (fun _ => 0) (2 * k)) ++
          hex_byte (apply_writes ws (fun _ => 0) (2 * k + 1)) ++ ['\n'] ∧
        ((emit_lines (apply_writes ws (fun _ => 0))).getD k []).length = 5 ∧
        (∀ c ∈ ((emit_lines (apply_writes ws (fun _ => 0))).getD k []).take 4,
          is_hex_upper c = true) ∧
        ((emit_lines (apply_writes ws (fun _ => 0))).getD k []).getLastD ' ' = '\n' ∧
        ((∀ i ∈ instrs, i.addr ≠ 2 * k ∧ i.addr + 1 ≠ 2 * k ∧
            i.addr ≠ 2 * k + 1 ∧ i.addr + 1 ≠ 2 * k + 1) →
          (emit_lines (apply_writes ws (fun _ => 0))).getD k [] =
            ['0', '0', '0', '0', '\n']))) := by
  obtain ⟨tail, htail, hprop⟩ := phase2_writes labels instrs [] ws h
  simp only [List.nil_append] at htail
  subst htail
  have hlt : ∀ x, apply_writes ws (fun _ => 0) x < 256 :=
    apply_writes_lt ws (fun _ => 0) (fun _ => by norm_num) (fun p hp => (hprop p hp).1)
  refine ⟨by simp [emit_lines], ?_⟩
  intro k hk
  rw [emit_lines_getD _ k hk]
  refine ⟨rfl, by simp [hex_byte], ?_, ?_, ?_⟩
  · intro c hc
    have ha := hlt (2 * k)
    have hb2 := hlt (2 * k + 1)
    simp only [hex_byte, List.cons_append, List.nil_append, List.take_succ_cons,
      List.take_zero, List.mem_cons, List.not_mem_nil, or_false] at hc
    rcases hc with rfl | rfl | rfl | rfl
    · exact hex_digit_is_hex _ (by omega)
    · exact hex_digit_is_hex _ (by omega)
    · exact hex_digit_is_hex _ (by omega)
    · exact hex_digit_is_hex _ (by omega)
  · simp [hex_byte]
  · intro hnw
    have h1 : apply_writes ws (fun _ => 0) (2 * k) = 0 := by
      apply apply_writes_not_mem
      intro p hp
      obtain ⟨-, i, hi, hor⟩ := hprop p hp
      have hne := hnw i hi
      rcases hor with heq | heq <;> omega
    have h2 : apply_writes ws (fun _ => 0) (2 * k + 1) = 0 := by
      apply apply_writes_not_mem
      intro p hp
      obtain ⟨-, i, hi, hor⟩ := hprop p hp
      have hne := hnw i hi
      rcases hor with heq | heq <;> omega
    rw [h1, h2]
    rfl

/-- Witness for C8: the empty program (no instructions, phase 2 write trace
empty) emits 512 lines whose first line is the zero word `0000`. -/
theorem C8_output_format_witness :
    (emit_lines (apply_writes [] (fun _ => 0))).length = ROM_SIZE / 2 ∧
    (emit_lines (apply_writes [] (fun _ => 0))).getD 0 [] = ['0', '0', '0', '0', '\n'] := by
  have h := C8_output_format [] [] [] rfl (by simp)
  exact ⟨h.1, ((h.2 0 (by norm_num [ROM_SIZE])).2.2.2.2) (by simp)⟩

end Assembler
